import Mathlib

/-!
Verification of the Aria reverse-mode automatic differentiation engine.

The definitions below are a shallow embedding of the Python source files:
  Aria/core/Variable.py          (class Variable: backward, unchain_backward)
  Aria/core/Function.py          (class Function: the apply-operation protocol)
  Aria/core/Math.py              (Add, Mul, Square, Pow and their wrappers)
  Aria/core/Config.py            (Config, using_config, no_grad)
  Aria/core/Utils.py             (GetItem, GetItemGrad, get_item)
  Aria/functions/Tensor.py       (SumTo, BroadcastTo and their wrappers)
  Aria/functions/utils/Transform.py (sum_to)

Numpy arrays are modelled by a flat list of integers together with a shape;
the numpy operations the engine consumes (broadcasting elementwise
arithmetic, ones_like, sum over an axis set with keepdims, squeeze of
leading axes, basic integer indexing) are modelled by executable functions
on that representation.  The Python object heap is modelled by an explicit
state holding an arena of Variable objects and of Function objects, and
mutation becomes state passing.  Exceptions are modelled by Option or by an
explicit result constructor carrying the heap at the point of the raise.
-/

namespace Aria

/-! ## The numeric buffer model (numpy ndarray with integer entries) -/

/-- A numpy ndarray: a shape and the row-major flat list of entries. -/
structure Tensor where
  shape : List Nat
  data : List Int
deriving DecidableEq

/-- Well-formed array: the flat data has exactly one entry per position. -/
def Tensor.wf (t : Tensor) : Prop := t.data.length = t.shape.prod

/-- Row-major flat offset of a multi-index. -/
def flatIndex : List Nat → List Nat → Nat
  | _ :: ds, i :: is => i * ds.prod + flatIndex ds is
  | _, _ => 0

/-- Entry of an array at a multi-index (0 when out of range). -/
def Tensor.get (t : Tensor) (idx : List Nat) : Int :=
  t.data.getD (flatIndex t.shape idx) 0

/-- All multi-indices of a shape, in row-major order. -/
def allIdx : List Nat → List (List Nat)
  | [] => [[]]
  | d :: ds => (List.range d).flatMap (fun i => (allIdx ds).map (fun is => i :: is))

/-- Numpy shape broadcasting on reversed shape lists (trailing axes first). -/
def bcastRev : List Nat → List Nat → Option (List Nat)
  | [], s1 => some s1
  | s0, [] => some s0
  | a :: as, b :: bs =>
    match bcastRev as bs with
    | none => none
    | some rest =>
      if a = b then some (a :: rest)
      else if a = 1 then some (b :: rest)
      else if b = 1 then some (a :: rest)
      else none

/-- Numpy shape broadcasting: align trailing axes; each pair of axis sizes
must be equal or one of them must be 1. -/
def broadcastShapes (s0 s1 : List Nat) : Option (List Nat) :=
  (bcastRev s0.reverse s1.reverse).map List.reverse

/-- Source multi-index read by an array of shape s at a multi-index of the
broadcast result shape: keep the trailing coordinates, clamp to 0 on axes
of size 1. -/
def bclamp (s : List Nat) (idx : List Nat) : List Nat :=
  List.zipWith (fun d i => if d = 1 then 0 else i) s (idx.drop (idx.length - s.length))

/-- Entry of an array at a multi-index of a broadcast result shape. -/
def Tensor.bget (t : Tensor) (idx : List Nat) : Int := t.get (bclamp t.shape idx)

/-- Broadcasting binary elementwise operation. -/
def tmap2 (f : Int → Int → Int) (t0 t1 : Tensor) : Option Tensor :=
  match broadcastShapes t0.shape t1.shape with
  | none => none
  | some bs => some ⟨bs, (allIdx bs).map (fun idx => f (t0.bget idx) (t1.bget idx))⟩

/-- Broadcasting elementwise addition (numpy x0 + x1). -/
def Tensor.add (t0 t1 : Tensor) : Option Tensor := tmap2 (fun a b => a + b) t0 t1

/-- Broadcasting elementwise multiplication (numpy x0 * x1). -/
def Tensor.mul (t0 t1 : Tensor) : Option Tensor := tmap2 (fun a b => a * b) t0 t1

/-- Elementwise natural power (numpy x ** c for a nonnegative integer c). -/
def Tensor.powi (t : Tensor) (c : Nat) : Tensor :=
  ⟨t.shape, t.data.map (fun v => v ^ c)⟩

/-- Numpy ones_like: same shape, every entry 1. -/
def onesLike (t : Tensor) : Tensor := ⟨t.shape, List.replicate t.data.length 1⟩

/-- Does index position k lie on one of the given axes, or do the two
multi-indices agree there?  Used to describe numpy sum over an axis set:
an output entry collects exactly the input entries that agree with it on
every axis not being summed. -/
def compatFrom (axes : List Nat) : Nat → List Nat → List Nat → Bool
  | _, [], [] => true
  | k, a :: as, b :: bs =>
    (decide (k ∈ axes) || decide (a = b)) && compatFrom axes (k + 1) as bs
  | _, _, _ => false

/-- Model of the numpy call x.sum(axes, keepdims=True): every axis listed in
axes is collapsed to size 1, and each output entry is the sum of the input
entries whose multi-index agrees with it on all axes not listed. -/
def Tensor.sumAxesKeepdims (t : Tensor) (axes : List Nat) : Tensor :=
  let rshape := t.shape.enum.map (fun p => if p.1 ∈ axes then 1 else p.2)
  ⟨rshape, (allIdx rshape).map (fun ridx =>
    (((allIdx t.shape).filter (fun idx => compatFrom axes 0 idx ridx)).map
      (fun idx => t.get idx)).sum)⟩

/-- Model of numpy squeeze over the leading axes (all of size 1): drop them
from the shape; the flat data is unchanged. -/
def Tensor.squeezeLead (t : Tensor) (lead : Nat) : Tensor :=
  ⟨t.shape.drop lead, t.data⟩

/-- Embedding of sum_to from Aria/functions/utils/Transform.py: sum a
broadcast result back down to the given shape.  lead counts the extra
leading axes; axis collects the positions where the target shape is 1. -/
def Transform.sum_to (x : Tensor) (shape : List Nat) : Tensor :=
  let ndim := shape.length
  let lead := x.shape.length - ndim
  let leadAxis := List.range lead
  let axis := shape.enum.filterMap
    (fun p => if p.2 = 1 then some (p.1 + lead) else none)
  let y := x.sumAxesKeepdims (leadAxis ++ axis)
  if 0 < lead then y.squeezeLead lead else y

/-- Compatibility test used by numpy broadcast_to(x, shape): x may have at
most as many axes as the target and, aligned from the trailing side, each
axis size must equal the target size or be 1.  Arguments are the reversed
shape lists. -/
def bcastLERev : List Nat → List Nat → Bool
  | [], _ => true
  | _ :: _, [] => false
  | a :: as, b :: bs => (decide (a = b) || decide (a = 1)) && bcastLERev as bs

/-- Model of numpy broadcast_to(x, shape). -/
def Tensor.broadcastToRaw (t : Tensor) (shp : List Nat) : Option Tensor :=
  if bcastLERev t.shape.reverse shp.reverse
  then some ⟨shp, (allIdx shp).map (fun idx => t.bget idx)⟩
  else none

/-- Model of numpy basic indexing x[i] with a single integer index: select
the i-th slice along the first axis. -/
def Tensor.getItemRaw (t : Tensor) (i : Nat) : Option Tensor :=
  match t.shape with
  | [] => none
  | d :: ds =>
    if i < d then some ⟨ds, (t.data.drop (i * ds.prod)).take ds.prod⟩ else none

/-! ## The configuration flags (Aria/core/Config.py) -/

/-- The two class attributes of class Config. -/
structure Config where
  enable_backprop : Bool
  train : Bool
deriving DecidableEq

/-- An attribute name of class Config, as passed to using_config. -/
inductive CKey where
  | enable_backprop
  | train
deriving DecidableEq

/-- Model of getattr(Config, name). -/
def Config.getattr (c : Config) : CKey → Bool
  | .enable_backprop => c.enable_backprop
  | .train => c.train

/-- Model of setattr(Config, name, value). -/
def Config.setattr (c : Config) : CKey → Bool → Config
  | .enable_backprop, v => { c with enable_backprop := v }
  | .train, v => { c with train := v }

/-- Embedding of the using_config context manager: read the previous value,
set the attribute, run the body (which may finish normally or raise and may
itself change the configuration), and restore the previous value on either
exit path (the try/finally of the source). -/
def using_config (name : CKey) (value : Bool)
    (body : Config → Except Unit Unit × Config) (c : Config) :
    Except Unit Unit × Config :=
  let prev_value := c.getattr name
  let r := body (c.setattr name value)
  (r.1, r.2.setattr name prev_value)

/-- Embedding of no_grad: using_config applied to enable_backprop and False. -/
def no_grad (body : Config → Except Unit Unit × Config) (c : Config) :
    Except Unit Unit × Config :=
  using_config .enable_backprop false body c

/-! ## The operation graph heap

Variables and Function instances live in two arenas indexed by creation
order; a Python reference becomes an index.  The weak references a Function
keeps to its outputs are plain indices here: the claims under verification
all keep the outputs alive, so a weak reference always dereferences. -/

/-- The concrete Function subclasses the claims exercise, together with the
constructor arguments they capture (the exponent of Pow, the target shape
of SumTo and BroadcastTo, the index of GetItem). -/
inductive FnKind where
  | add
  | mul
  | square
  | powc (c : Nat)
  | sumTo (shape : List Nat)
  | broadcastTo (shape : List Nat)
  | getItem (i : Nat)
deriving DecidableEq

/-- A Function instance after its single forward call: its kind, the
generation copied from the inputs, the stored input and output Variables,
and the shapes its forward recorded (x0_shape and x1_shape of the binary
arithmetic classes, x_shape of SumTo/BroadcastTo). -/
structure FnObj where
  kind : FnKind
  generation : Nat
  inputs : List Nat
  outputs : List Nat
  x0_shape : List Nat
  x1_shape : List Nat
  x_shape : List Nat
deriving DecidableEq

/-- A Variable object: data, optional grad (itself a Variable reference),
optional creator (a Function reference) and the generation counter. -/
structure VarObj where
  data : Tensor
  grad : Option Nat
  creator : Option Nat
  generation : Nat
deriving DecidableEq

instance : Inhabited VarObj := ⟨⟨⟨[], []⟩, none, none, 0⟩⟩

instance : Inhabited FnObj := ⟨⟨.add, 0, [], [], [], [], []⟩⟩

/-- The heap: the Variable arena, the Function arena, and the process-wide
Config.enable_backprop flag. -/
structure EngineState where
  vars : List VarObj
  fns : List FnObj
  enable_backprop : Bool
deriving DecidableEq

/-- Dereference a Variable. -/
def getVar (s : EngineState) (i : Nat) : VarObj := s.vars.getD i default

/-- Dereference a Function. -/
def getFn (s : EngineState) (i : Nat) : FnObj := s.fns.getD i default

/-- Assign the grad attribute of a Variable. -/
def setGrad (s : EngineState) (i : Nat) (g : Option Nat) : EngineState :=
  { s with vars := s.vars.set i { s.vars.getD i default with grad := g } }

/-- Embedding of Variable.unchain: set creator to None. -/
def unchainVar (s : EngineState) (i : Nat) : EngineState :=
  { s with vars := s.vars.set i { s.vars.getD i default with creator := none } }

/-- Allocate a fresh leaf Variable holding the given data. -/
def newVar (s : EngineState) (t : Tensor) : Nat × EngineState :=
  (s.vars.length, { s with vars := s.vars ++ [⟨t, none, none, 0⟩] })

/-- The forward rule of each Function subclass (Math.py, Tensor.py,
Utils.py), on raw buffers. -/
def fnForward : FnKind → List Tensor → Option Tensor
  | .add, [x0, x1] => Tensor.add x0 x1
  | .mul, [x0, x1] => Tensor.mul x0 x1
  | .square, [x] => some (x.powi 2)
  | .powc c, [x] => some (x.powi c)
  | .sumTo shp, [x] => some (Transform.sum_to x shp)
  | .broadcastTo shp, [x] => x.broadcastToRaw shp
  | .getItem i, [x] => x.getItemRaw i
  | _, _ => none

/-- Embedding of Function.call (Aria/core/Function.py): load the input
data, run forward, wrap the result in a fresh Variable; when
Config.enable_backprop is set, record the Function with generation equal to
the maximum input generation, make it the creator of the output (whose
generation becomes one more), and store the input and output references.
Returns the output Variable. -/
def applyFn (k : FnKind) (inIds : List Nat) (s : EngineState) :
    Option (Nat × EngineState) :=
  let xs := inIds.map (fun i => (getVar s i).data)
  match fnForward k xs with
  | none => none
  | some y =>
    let yid := s.vars.length
    if s.enable_backprop then
      let gen := (inIds.map (fun i => (getVar s i).generation)).foldl max 0
      let fid := s.fns.length
      let f : FnObj :=
        { kind := k, generation := gen, inputs := inIds, outputs := [yid],
          x0_shape := (xs.getD 0 ⟨[], []⟩).shape,
          x1_shape := (xs.getD 1 ⟨[], []⟩).shape,
          x_shape := (xs.getD 0 ⟨[], []⟩).shape }
      some (yid, { s with
        vars := s.vars ++ [⟨y, none, some fid, gen + 1⟩],
        fns := s.fns ++ [f] })
    else
      some (yid, { s with vars := s.vars ++ [⟨y, none, none, 0⟩] })

/-! Wrappers mirroring the module-level helper functions of Math.py,
Tensor.py and Utils.py.  A Python scalar operand becomes a fresh leaf
Variable holding a 0-dimensional array (as_array followed by the
as_variable wrapping inside Function.call). -/

/-- square(x) of Math.py. -/
def square_v (x : Nat) (s : EngineState) : Option (Nat × EngineState) :=
  applyFn .square [x] s

/-- add(x0, x1) of Math.py on two Variables. -/
def add_v (x0 x1 : Nat) (s : EngineState) : Option (Nat × EngineState) :=
  applyFn .add [x0, x1] s

/-- mul(x0, x1) of Math.py on two Variables. -/
def mul_v (x0 x1 : Nat) (s : EngineState) : Option (Nat × EngineState) :=
  applyFn .mul [x0, x1] s

/-- mul(x, c) of Math.py with a Python scalar second operand, as produced
by the expression c * x through Variable.rmul: as_array(c) makes a
0-dimensional array, wrapped into a fresh leaf Variable. -/
def mul_const (x : Nat) (c : Int) (s : EngineState) : Option (Nat × EngineState) :=
  let p := newVar s ⟨[], [c]⟩
  applyFn .mul [x, p.1] p.2

/-- pow(x, c) of Math.py. -/
def pow_v (x : Nat) (c : Nat) (s : EngineState) : Option (Nat × EngineState) :=
  applyFn (.powc c) [x] s

/-- sum_to(x, shape) of Aria/functions/Tensor.py: identity when the shape
already matches, otherwise a recorded SumTo application. -/
def sum_to_v (x : Nat) (shp : List Nat) (s : EngineState) :
    Option (Nat × EngineState) :=
  if (getVar s x).data.shape = shp then some (x, s)
  else applyFn (.sumTo shp) [x] s

/-- broadcast_to(x, shape) of Aria/functions/Tensor.py. -/
def broadcast_to_v (x : Nat) (shp : List Nat) (s : EngineState) :
    Option (Nat × EngineState) :=
  if (getVar s x).data.shape = shp then some (x, s)
  else applyFn (.broadcastTo shp) [x] s

/-- get_item(x, slices) of Aria/core/Utils.py. -/
def get_item_v (x : Nat) (i : Nat) (s : EngineState) : Option (Nat × EngineState) :=
  applyFn (.getItem i) [x] s

/-- The backward rule of each Function subclass, run on gradient Variables
through the same apply-operation protocol (so it is recorded whenever
enable_backprop is set).  Each returned slot is the Python return value for
that input: some gradient Variable, or none for the Python None that
GetItem.backward returns (it constructs GetItemGrad(self.slices, x.shape)
but never applies it and falls off the end of the method). -/
def fnBackward (f : FnObj) (gys : List Nat) (s : EngineState) :
    Option (List (Option Nat) × EngineState) :=
  match f.kind, f.inputs, gys with
  | .add, _, [gy] =>
    if f.x0_shape = f.x1_shape then some ([some gy, some gy], s)
    else
      match sum_to_v gy f.x0_shape s with
      | none => none
      | some (gx0, s1) =>
        match sum_to_v gy f.x1_shape s1 with
        | none => none
        | some (gx1, s2) => some ([some gx0, some gx1], s2)
  | .mul, [x0, x1], [gy] =>
    match mul_v gy x1 s with
    | none => none
    | some (gx0, s1) =>
      match mul_v gy x0 s1 with
      | none => none
      | some (gx1, s2) =>
        if f.x0_shape = f.x1_shape then some ([some gx0, some gx1], s2)
        else
          match sum_to_v gx0 f.x0_shape s2 with
          | none => none
          | some (gx0b, s3) =>
            match sum_to_v gx1 f.x1_shape s3 with
            | none => none
            | some (gx1b, s4) => some ([some gx0b, some gx1b], s4)
  | .square, [x], [gy] =>
    match mul_const x 2 s with
    | none => none
    | some (t1, s1) =>
      match mul_v t1 gy s1 with
      | none => none
      | some (gx, s2) => some ([some gx], s2)
  | .powc c, [x], [gy] =>
    match pow_v x (c - 1) s with
    | none => none
    | some (u, s1) =>
      match mul_const u (c : Int) s1 with
      | none => none
      | some (t, s2) =>
        match mul_v t gy s2 with
        | none => none
        | some (gx, s3) => some ([some gx], s3)
  | .sumTo _, _, [gy] =>
    match broadcast_to_v gy f.x_shape s with
    | none => none
    | some (gx, s1) => some ([some gx], s1)
  | .broadcastTo _, _, [gy] =>
    match sum_to_v gy f.x_shape s with
    | none => none
    | some (gx, s1) => some ([some gx], s1)
  | .getItem _, _, [_] => some ([none], s)
  | _, _, _ => none

/-! ## The backward engine (Variable.backward of Aria/core/Variable.py) -/

/-- Stable insertion keeping the work list sorted by ascending generation:
the effect of funcs.append(f) followed by funcs.sort(key=generation) with
a stable sort, given that the list was already sorted. -/
def insertByGen (s : EngineState) (fid : Nat) : List Nat → List Nat
  | [] => [fid]
  | g :: gs =>
    if (getFn s g).generation ≤ (getFn s fid).generation
    then g :: insertByGen s fid gs
    else fid :: g :: gs

/-- Embedding of the add_func closure: skip Functions already seen,
otherwise record them and keep the work list sorted by generation. -/
def add_func (s : EngineState) (fid : Nat) (funcs seen : List Nat) :
    List Nat × List Nat :=
  if fid ∈ seen then (funcs, seen)
  else (insertByGen s fid funcs, fid :: seen)

/-- One zip(f.inputs, gxs) assignment: store the gradient when grad is
absent, otherwise accumulate with x.grad = x.grad + gx (an Add application
through the protocol).  Adding the Python None that a broken backward rule
returns to an existing gradient would raise, hence the none result there. -/
def assignGrad (x : Nat) (gx : Option Nat) (s : EngineState) :
    Option EngineState :=
  match (getVar s x).grad, gx with
  | none, g => some (setGrad s x g)
  | some g0, some g =>
    match applyFn .add [g0, g] s with
    | none => none
    | some p => some (setGrad p.2 x (some p.1))
  | some _, none => none

/-- The for x, gx in zip(f.inputs, gxs) loop: assign or accumulate each
gradient, then enqueue the creator of the input when it has one. -/
def accumulate : List (Nat × Option Nat) → EngineState → List Nat → List Nat →
    Option (EngineState × List Nat × List Nat)
  | [], s, funcs, seen => some (s, funcs, seen)
  | (x, gx) :: rest, s, funcs, seen =>
    match assignGrad x gx s with
    | none => none
    | some s1 =>
      match (getVar s1 x).creator with
      | some c =>
        let p := add_func s1 c funcs seen
        accumulate rest s1 p.1 p.2
      | none => accumulate rest s1 funcs seen

/-- Collect the list of grads read from the outputs, all of which must be
present for the backward rule to receive Variables. -/
def allSome : List (Option Nat) → Option (List Nat)
  | [] => some []
  | none :: _ => none
  | some x :: rest =>
    match allSome rest with
    | none => none
    | some l => some (x :: l)

/-- Clear the grad of every output of the Function just processed (the
retain_grad=False branch). -/
def clearOutputs (outs : List Nat) (s : EngineState) : EngineState :=
  outs.foldl (fun s1 o => setGrad s1 o none) s

/-- The while funcs loop of Variable.backward: pop the Function of largest
generation, read the grads of its outputs, run its backward rule with
Config.enable_backprop forced to create_graph (restored afterwards, the
with using_config block), accumulate the returned gradients into the
inputs, enqueue their creators, and clear the output grads unless
retain_grad is set.  The fuel argument only bounds the recursion; none is
returned when it runs out or when a numeric operation fails. -/
def backward_loop (retain_grad create_graph : Bool) :
    Nat → List Nat → List Nat → EngineState → Option EngineState
  | 0, _, _, _ => none
  | _ + 1, [], _, s => some s
  | fuel + 1, f0 :: frest, seen, s =>
    let funcs := f0 :: frest
    match funcs.getLast? with
    | none => some s
    | some fid =>
      let funcs1 := funcs.dropLast
      let f := getFn s fid
      match allSome (f.outputs.map (fun o => (getVar s o).grad)) with
      | none => none
      | some gys =>
        let prev := s.enable_backprop
        let s1 := { s with enable_backprop := create_graph }
        match fnBackward f gys s1 with
        | none => none
        | some (gxs, s2) =>
          match accumulate (f.inputs.zip gxs) s2 funcs1 seen with
          | none => none
          | some (s3, funcs2, seen2) =>
            let s4 := if retain_grad then s3 else clearOutputs f.outputs s3
            backward_loop retain_grad create_graph fuel funcs2 seen2
              { s4 with enable_backprop := prev }

/-- The outcome of a call to Variable.backward: normal return, a raised
exception (carrying the heap at the raise, since the mutations before it
persist), or an artefact of insufficient fuel. -/
inductive PyResult where
  | ok (s : EngineState)
  | exn (s : EngineState)
  | stuck
deriving DecidableEq

/-- Embedding of Variable.backward(retain_grad, create_graph): seed the
grad with a fresh Variable of ones when absent, then run the work-list
traversal starting from the creator.  When the Variable has no creator,
add_func(None) sorts the work list with key generation, which dereferences
None and raises AttributeError: the call raises after seeding. -/
def backward (vid : Nat) (retain_grad create_graph : Bool) (fuel : Nat)
    (s : EngineState) : PyResult :=
  let s1 :=
    match (getVar s vid).grad with
    | none =>
      let p := newVar s (onesLike (getVar s vid).data)
      setGrad p.2 vid (some p.1)
    | some _ => s
  match (getVar s1 vid).creator with
  | none => .exn s1
  | some f0 =>
    match backward_loop retain_grad create_graph fuel [f0] [f0] s1 with
    | none => .stuck
    | some s2 => .ok s2

/-! ## unchain_backward (Aria/core/Variable.py) -/

/-- The for x in f.inputs loop of unchain_backward: push the creator of
every input that has one and unchain that input. -/
def unchainInputs : List Nat → EngineState → List Nat → EngineState × List Nat
  | [], s, funcs => (s, funcs)
  | x :: xs, s, funcs =>
    match (getVar s x).creator with
    | some c => unchainInputs xs (unchainVar s x) (funcs ++ [c])
    | none => unchainInputs xs s funcs

/-- The while funcs loop of unchain_backward (funcs.pop() takes the last
element). -/
def unchain_loop : Nat → List Nat → EngineState → EngineState
  | 0, _, s => s
  | _ + 1, [], s => s
  | fuel + 1, f0 :: frest, s =>
    match (f0 :: frest).getLast? with
    | none => s
    | some fid =>
      let p := unchainInputs (getFn s fid).inputs s (f0 :: frest).dropLast
      unchain_loop fuel p.2 p.1

/-- Embedding of Variable.unchain_backward: walk the creator chain and
unchain every input Variable encountered; the starting Variable itself is
never unchained. -/
def unchain_backward (vid : Nat) (fuel : Nat) (s : EngineState) : EngineState :=
  match (getVar s vid).creator with
  | none => s
  | some f => unchain_loop fuel [f] s

/-- Embedding of Variable.cleargrad. -/
def cleargrad (s : EngineState) (vid : Nat) : EngineState := setGrad s vid none

/-! ## Scenario builders and observation helpers for the claims -/

/-- A heap holding one leaf Variable. -/
def init1 (t : Tensor) : EngineState := ⟨[⟨t, none, none, 0⟩], [], true⟩

/-- A heap holding two leaf Variables. -/
def init2 (t0 t1 : Tensor) : EngineState :=
  ⟨[⟨t0, none, none, 0⟩, ⟨t1, none, none, 0⟩], [], true⟩

/-- The heap of a normally returned backward call. -/
def okState : PyResult → Option EngineState
  | .ok s => some s
  | _ => none

/-- The heap at the raise of a backward call that raised. -/
def exnState : PyResult → Option EngineState
  | .exn s => some s
  | _ => none

/-- Observation: the grad reference of a Variable after a normal return. -/
def okGrad (r : PyResult) (i : Nat) : Option (Option Nat) :=
  (okState r).map (fun s => (getVar s i).grad)

/-- Observation: the data of the grad of a Variable after a normal return
(none when the call did not return normally or the grad is absent). -/
def okGradData (r : PyResult) (i : Nat) : Option Tensor :=
  match okState r with
  | none => none
  | some s =>
    match (getVar s i).grad with
    | none => none
    | some g => some ((getVar s g).data)

/-- Observation: the creator of the grad Variable of a Variable after a
normal return. -/
def okGradCreator (r : PyResult) (i : Nat) : Option (Option Nat) :=
  match okState r with
  | none => none
  | some s =>
    match (getVar s i).grad with
    | none => none
    | some g => some ((getVar s g).creator)

/-- Observation: the creator of a Variable after a normal return. -/
def okCreator (r : PyResult) (i : Nat) : Option (Option Nat) :=
  (okState r).map (fun s => (getVar s i).creator)

/-- Observation: how many Function objects the heap holds after a normal
return. -/
def okFnCount (r : PyResult) : Option Nat :=
  (okState r).map (fun s => s.fns.length)

/-- The diamond program of C1: a leaf a (Variable 0), b = square(a),
c = square(a), d = add(b, c), then d.backward(). -/
def diamondRun (t : Tensor) : PyResult :=
  match square_v 0 (init1 t) with
  | none => .stuck
  | some (b, s1) =>
    match square_v 0 s1 with
    | none => .stuck
    | some (c, s2) =>
      match add_v b c s2 with
      | none => .stuck
      | some (d, s3) => backward d false false 9 s3

/-- The program of C3: leaves x (Variable 0) and y (Variable 1),
d = add(x, y), then d.backward(). -/
def addRun (t0 t1 : Tensor) : PyResult :=
  match add_v 0 1 (init2 t0 t1) with
  | none => .stuck
  | some (d, s1) => backward d false false 9 s1

/-- The program of C10: a leaf x (Variable 0), y = add(x, x), then
y.backward(). -/
def addxxRun (t : Tensor) : PyResult :=
  match add_v 0 0 (init1 t) with
  | none => .stuck
  | some (y, s1) => backward y false false 9 s1

/-- The program of C5: a leaf x (Variable 0), y = square(x) (Variable 1),
then y.backward() with default arguments. -/
def squareRun (t : Tensor) : PyResult :=
  match square_v 0 (init1 t) with
  | none => .stuck
  | some (y, s1) => backward y false false 9 s1

/-- The program of C4: a leaf a (Variable 0) with no creator, then
a.backward(). -/
def leafRun (t : Tensor) : PyResult := backward 0 false false 9 (init1 t)

/-- The forward program of C2: a leaf x (Variable 0) holding a
0-dimensional array with value v, y = pow(x, 3) (Variable 1). -/
def c2Build (v : Int) : EngineState :=
  match pow_v 0 3 (init1 ⟨[], [v]⟩) with
  | none => init1 ⟨[], [v]⟩
  | some p => p.2

/-- First backward call of C2: y.backward(create_graph=True).  The
gradient of x is Variable 6 (two Mul applications and a Pow application
are recorded on the way). -/
def c2First (v : Int) : PyResult := backward 1 false true 9 (c2Build v)

/-- Second backward call of C2 exactly as the claim states it: x.grad is
left in place and backward is called on the gradient Variable 6. -/
def c2SecondPlain (v : Int) : PyResult :=
  match okState (c2First v) with
  | none => .stuck
  | some s => backward 6 false false 9 s

/-- Second backward call of C2 with x.cleargrad() in between. -/
def c2SecondCleared (v : Int) : PyResult :=
  match okState (c2First v) with
  | none => .stuck
  | some s => backward 6 false false 9 (cleargrad s 0)

/-- First backward call of C2 run with create_graph left False, for the
contrast the claim draws: the gradient is then computed with recording
disabled and has no creator. -/
def c2FirstNoGraph (v : Int) : PyResult := backward 1 false false 9 (c2Build v)

/-- The chain program of C7: a leaf x (Variable 0), y = square(x)
(Variable 1), z = square(y) (Variable 2). -/
def chain2 (t : Tensor) : EngineState :=
  match square_v 0 (init1 t) with
  | none => init1 t
  | some (_, s1) =>
    match square_v 1 s1 with
    | none => s1
    | some (_, s2) => s2

/-- The state of C7 after z.unchain_backward(). -/
def c7Unchained (t : Tensor) : EngineState := unchain_backward 2 9 (chain2 t)

/-- The program of C7: build the chain, z.unchain_backward(), then
z.backward(). -/
def c7Run (t : Tensor) : PyResult := backward 2 false false 9 (c7Unchained t)

/-- The program of C6: a leaf x (Variable 0), y = get_item(x, i)
(Variable 1), then y.backward(). -/
def getItemRun (t : Tensor) (i : Nat) : PyResult :=
  match get_item_v 0 i (init1 t) with
  | none => .stuck
  | some (y, s1) => backward y false false 9 s1

/-- The heap produced by the C8 witness application: Square applied to the
single leaf Variable of init1 with data 5. -/
def c8After : EngineState :=
  ⟨[⟨⟨[], [5]⟩, none, none, 0⟩, ⟨⟨[], [25]⟩, none, some 0, 1⟩],
    [⟨.square, 0, [0], [1], [], [], []⟩], true⟩

/-- Modelled from the spec words for C3: the elementwise gradient of the
broadcast addition is one at every position of the broadcast shape, and the
gradient delivered to an input of shape s is that elementwise gradient
summed over the broadcast axes; the entry at a multi-index of s is
therefore the number of positions of the broadcast shape that read from
that multi-index under broadcasting. -/
def specGrad (s bs : List Nat) : Tensor :=
  ⟨s, (allIdx s).map
    (fun ridx => (((allIdx bs).filter (fun j => bclamp s j = ridx)).length : Int))⟩

/-- Pointwise broadcast compatibility of a source shape s with a broadcast
result shape bs: bs extends s by leading axes, and on the shared trailing
axes every size of s is 1 or equal to the size in bs. -/
def PadCompat (s bs : List Nat) : Prop :=
  ∃ L M, bs = L ++ M ∧ M.length = s.length ∧
    List.Forall₂ (fun a b => a = 1 ∨ a = b) s M

/-- The axis list that Transform.sum_to sums over: the extra leading axes
followed by the positions where the target shape is 1.  Names the
expression leadAxis ++ axis of the source for use in statements. -/
def sumToAxes (s : List Nat) (lead : Nat) : List Nat :=
  List.range lead ++
    s.enum.filterMap (fun p => if p.2 = 1 then some (p.1 + lead) else none)

/-- Observation: the pre-broadcast operand shapes a binary arithmetic
Function recorded at forward time. -/
def fnCapturedShapes (s : EngineState) (fid : Nat) : List Nat × List Nat :=
  ((getFn s fid).x0_shape, (getFn s fid).x1_shape)

/-- The generation invariant of C8 over a heap: every recorded Function has
in-range input and output references, stamps each output with its own
generation plus one, and every output generation strictly exceeds every
input generation. -/
def GenInv (s : EngineState) : Prop :=
  ∀ fid, fid < s.fns.length →
    (∀ i ∈ (getFn s fid).inputs, i < s.vars.length) ∧
    (∀ o ∈ (getFn s fid).outputs, o < s.vars.length) ∧
    (∀ o ∈ (getFn s fid).outputs,
      (getVar s o).generation = (getFn s fid).generation + 1 ∧
      ∀ i ∈ (getFn s fid).inputs,
        (getVar s i).generation < (getVar s o).generation)

end Aria

namespace Aria

/-! ## Basic facts about multi-indices and the buffer model -/

theorem length_allIdx (s : List Nat) : (allIdx s).length = s.prod := by
  induction s with
  | nil => rfl
  | cons d ds ih =>
    simp [allIdx, List.length_flatMap, Function.comp_def, ih, List.map_const']

theorem mem_allIdx {idx s : List Nat} :
    idx ∈ allIdx s ↔ List.Forall₂ (fun i d => i < d) idx s := by
  induction s generalizing idx with
  | nil =>
    cases idx with
    | nil => simp [allIdx]
    | cons i is => simp [allIdx]
  | cons d ds ih =>
    cases idx with
    | nil =>
      simp only [allIdx, List.mem_flatMap, List.mem_map, List.mem_range]
      constructor
      · rintro ⟨a, _, b, _, he⟩
        cases he
      · rintro ⟨⟩
    | cons i is =>
      simp only [allIdx, List.mem_flatMap, List.mem_map, List.mem_range,
        List.forall₂_cons, ih]
      constructor
      · rintro ⟨a, ha, b, hb, he⟩
        injection he with h1 h2
        subst h1
        subst h2
        exact ⟨ha, hb⟩
      · rintro ⟨ha, hb⟩
        exact ⟨i, ha, is, hb, rfl⟩

theorem mem_allIdx_cons {i d : Nat} {is ds : List Nat} :
    (i :: is) ∈ allIdx (d :: ds) ↔ i < d ∧ is ∈ allIdx ds := by
  simp [mem_allIdx, List.forall₂_cons]

theorem flatIndex_lt_prod {s idx : List Nat} (h : idx ∈ allIdx s) :
    flatIndex s idx < s.prod := by
  induction s generalizing idx with
  | nil =>
    cases (mem_allIdx.1 h)
    simp [flatIndex]
  | cons d ds ih =>
    cases idx with
    | nil => exact absurd (mem_allIdx.1 h) (by rintro ⟨⟩)
    | cons i is =>
      obtain ⟨hi, hrest⟩ := mem_allIdx_cons.1 h
      have h1 : flatIndex ds is < ds.prod := ih hrest
      have h2 : i * ds.prod + ds.prod ≤ d * ds.prod := by
        calc i * ds.prod + ds.prod = (i + 1) * ds.prod := by ring
          _ ≤ d * ds.prod := Nat.mul_le_mul_right _ hi
      simp only [flatIndex, List.prod_cons]
      omega

theorem getElem?_flatMap_const {α β : Type} {f : α → List β} {P : Nat} :
    ∀ {l : List α} {n k : Nat} {a : α}, l[n]? = some a →
      (∀ x ∈ l, (f x).length = P) → k < P →
      (l.flatMap f)[n * P + k]? = (f a)[k]?
  | [], n, k, a, h, _, _ => by simp at h
  | x :: l, 0, k, a, h, hP, hk => by
    simp only [List.getElem?_cons_zero, Option.some.injEq] at h
    subst h
    simp only [List.flatMap_cons, Nat.zero_mul, Nat.zero_add,
      List.getElem?_append, hP x (by simp)]
    simp [hk]
  | x :: l, n + 1, k, a, h, hP, hk => by
    simp only [List.getElem?_cons_succ] at h
    have hlen : (f x).length = P := hP x (by simp)
    have hle : (f x).length ≤ (n + 1) * P + k := by
      rw [hlen]; calc P ≤ (n + 1) * P := Nat.le_mul_of_pos_left _ (Nat.succ_pos n)
        _ ≤ (n + 1) * P + k := Nat.le_add_right _ _
    rw [List.flatMap_cons, List.getElem?_append_right hle, hlen,
      show (n + 1) * P + k - P = n * P + k by ring_nf; omega]
    exact getElem?_flatMap_const h (fun y hy => hP y (by simp [hy])) hk

theorem getElem?_allIdx_flatIndex {s idx : List Nat} (h : idx ∈ allIdx s) :
    (allIdx s)[flatIndex s idx]? = some idx := by
  induction s generalizing idx with
  | nil =>
    cases (mem_allIdx.1 h)
    simp [allIdx, flatIndex]
  | cons d ds ih =>
    cases idx with
    | nil => exact absurd (mem_allIdx.1 h) (by rintro ⟨⟩)
    | cons i is =>
    obtain ⟨hi, hm⟩ := mem_allIdx_cons.1 h
    have hk : flatIndex ds is < (allIdx ds).length := by
      rw [length_allIdx]; exact flatIndex_lt_prod hm
    have hr : (List.range d)[i]? = some i := by
      simp [List.getElem?_range, hi]
    have := getElem?_flatMap_const (f := fun i => (allIdx ds).map (fun is => i :: is))
      (P := (allIdx ds).length) hr (fun x _ => by simp) hk
    simp only [flatIndex, allIdx]
    rw [show i * ds.prod + flatIndex ds is =
      i * (allIdx ds).length + flatIndex ds is by rw [length_allIdx]]
    rw [this, List.getElem?_map, ih hm]
    rfl

theorem getD_drop_take {d : List Int} {m P k : Nat} (hk : k < P) :
    ((d.drop m).take P).getD k 0 = d.getD (m + k) 0 := by
  simp [List.getD_eq_getElem?_getD, List.getElem?_take, List.getElem?_drop, hk]

theorem chunks_concat : ∀ (n : Nat) {P : Nat} (d : List Int), d.length = n * P →
    (List.range n).flatMap (fun i => (d.drop (i * P)).take P) = d
  | 0, P, d, h => by
    have : d = [] := List.length_eq_zero.1 (by omega)
    subst this; rfl
  | n + 1, P, d, h => by
    rw [List.range_succ_eq_map, List.flatMap_cons, List.flatMap_map]
    have h2 : (d.drop P).length = n * P := by
      simp only [List.length_drop, h]; ring_nf; omega
    have inner : ∀ i : Nat,
        (d.drop (i.succ * P)).take P = ((d.drop P).drop (i * P)).take P := by
      intro i
      rw [List.drop_drop]
      congr 2
      rw [Nat.succ_mul]
      ring
    calc (d.drop (0 * P)).take P ++
          (List.range n).flatMap (fun i => (d.drop (i.succ * P)).take P)
        = d.take P ++ (List.range n).flatMap
            (fun i => ((d.drop P).drop (i * P)).take P) := by
          rw [List.flatMap_congr (fun i _ => inner i)]; simp
      _ = d.take P ++ d.drop P := by rw [chunks_concat n (d.drop P) h2]
      _ = d := List.take_append_drop _ _

theorem map_getD_allIdx : ∀ (s : List Nat) (d : List Int), d.length = s.prod →
    (allIdx s).map (fun idx => d.getD (flatIndex s idx) 0) = d
  | [], d, h => by
    cases d with
    | nil => simp [List.prod_nil] at h
    | cons a tail =>
      cases tail with
      | nil => simp [allIdx, flatIndex]
      | cons b t2 => simp [List.prod_nil] at h
  | dd :: ds, d, h => by
    rw [allIdx, List.map_flatMap]
    have hchunks := chunks_concat dd (P := ds.prod) d
      (by rw [h]; simp [List.prod_cons])
    refine Eq.trans ?_ hchunks
    refine List.flatMap_congr (fun i hi => ?_)
    have hlen : ((d.drop (i * ds.prod)).take ds.prod).length = ds.prod := by
      have hi' : i < dd := List.mem_range.1 hi
      have h2 : i * ds.prod + ds.prod ≤ dd * ds.prod := by
        calc i * ds.prod + ds.prod = (i + 1) * ds.prod := by ring
          _ ≤ dd * ds.prod := Nat.mul_le_mul_right _ hi'
      simp only [List.length_take, List.length_drop, h, List.prod_cons]
      omega
    rw [List.map_map, ← map_getD_allIdx ds _ hlen]
    refine List.map_congr_left (fun is his => ?_)
    simp only [Function.comp_apply, flatIndex]
    rw [getD_drop_take (flatIndex_lt_prod his)]

theorem get_mk_map {s : List Nat} {g : List Nat → Int} {idx : List Nat}
    (h : idx ∈ allIdx s) : Tensor.get ⟨s, (allIdx s).map g⟩ idx = g idx := by
  simp only [Tensor.get, List.getD_eq_getElem?_getD, List.getElem?_map,
    getElem?_allIdx_flatIndex h]
  rfl

theorem bclamp_of_mem {s idx : List Nat} (h : idx ∈ allIdx s) :
    bclamp s idx = idx := by
  have hlen : idx.length = s.length := (mem_allIdx.1 h).length_eq
  unfold bclamp
  rw [hlen, Nat.sub_self, List.drop_zero]
  have h2 := mem_allIdx.1 h
  clear h hlen
  induction h2 with
  | nil => rfl
  | cons hid _ ih =>
    rename_i i d is ds _
    simp only [List.zipWith_cons_cons, ih, List.cons.injEq, and_true]
    by_cases hd : d = 1
    · subst hd
      rw [if_pos rfl]
      omega
    · simp [hd]

theorem bget_mk_map {s : List Nat} {g : List Nat → Int} {idx : List Nat}
    (h : idx ∈ allIdx s) : Tensor.bget ⟨s, (allIdx s).map g⟩ idx = g idx := by
  rw [Tensor.bget]
  show Tensor.get ⟨s, (allIdx s).map g⟩ (bclamp s idx) = g idx
  rw [bclamp_of_mem h]
  exact get_mk_map h

theorem bget_of_mem {t : Tensor} {idx : List Nat} (h : idx ∈ allIdx t.shape) :
    t.bget idx = t.data.getD (flatIndex t.shape idx) 0 := by
  rw [Tensor.bget, bclamp_of_mem h]
  rfl

theorem bget_scalar (c : Int) (idx : List Nat) : Tensor.bget ⟨[], [c]⟩ idx = c := by
  rw [Tensor.bget]
  show Tensor.get ⟨[], [c]⟩ (bclamp [] idx) = c
  rw [show bclamp [] idx = [] from rfl]
  rfl

theorem bget_replicate_one {s : List Nat} {n : Nat} {idx : List Nat}
    (h : idx ∈ allIdx s) (hn : s.prod ≤ n) :
    Tensor.bget ⟨s, List.replicate n (1 : Int)⟩ idx = 1 := by
  rw [bget_of_mem h, List.getD_eq_getElem?_getD, List.getElem?_replicate]
  have := flatIndex_lt_prod h
  simp [Nat.lt_of_lt_of_le this hn]

theorem bcastRev_nil_right (l : List Nat) : bcastRev l [] = some l := by
  cases l <;> rfl

theorem bcastRev_self (l : List Nat) : bcastRev l l = some l := by
  induction l with
  | nil => rfl
  | cons a as ih => simp [bcastRev, ih]

theorem broadcastShapes_self (s : List Nat) : broadcastShapes s s = some s := by
  simp [broadcastShapes, bcastRev_self]

theorem broadcastShapes_nil_right (s : List Nat) :
    broadcastShapes s [] = some s := by
  simp [broadcastShapes, bcastRev_nil_right]

theorem getD_map_lt {l : List Int} {f : Int → Int} {n : Nat}
    (h : n < l.length) (d e : Int) : (l.map f).getD n d = f (l.getD n e) := by
  simp [List.getD_eq_getElem?_getD, List.getElem?_map, List.getElem?_eq_getElem h]

theorem le_foldl_max (l : List Nat) (a : Nat) :
    a ≤ l.foldl max a ∧ ∀ x ∈ l, x ≤ l.foldl max a := by
  induction l generalizing a with
  | nil => simp
  | cons b bs ih =>
    refine ⟨le_trans (le_max_left a b) (ih (max a b)).1, ?_⟩
    intro x hx
    rcases List.mem_cons.1 hx with rfl | hx2
    · exact le_trans (le_max_right a x) (ih (max a x)).1
    · exact (ih (max a b)).2 x hx2

theorem getD_append_self {α : Type} [Inhabited α] (l : List α) (v : α) :
    (l ++ [v]).getD l.length default = v := by
  rw [List.getD_append_right l [v] default l.length (le_refl _), Nat.sub_self]
  rfl

theorem getD_append_lt {α : Type} [Inhabited α] (l : List α) (v : α) {i : Nat}
    (h : i < l.length) : (l ++ [v]).getD i default = l.getD i default :=
  List.getD_append l [v] default i h

/-! ## Theorems for the claims -/

/-- C9: entering and exiting a no-gradient scope (and any using_config
scope) restores the previous value of the overridden configuration flag
exactly, on every exit path: whatever the body did to the configuration and
whether it finished normally or raised, after the scope the flag equals its
value from before the scope was entered. -/
theorem c9_using_config_restores_flag
    (name : CKey) (value : Bool) (body : Config → Except Unit Unit × Config)
    (c : Config) :
    ((using_config name value body c).2).getattr name = c.getattr name ∧
    ((no_grad body c).2).getattr .enable_backprop =
      c.getattr .enable_backprop := by
  constructor
  · show ((body (c.setattr name value)).2.setattr name
      (c.getattr name)).getattr name = c.getattr name
    cases name
    · rfl
    · rfl
  · rfl

/-- C4 counterexample: the claim says backward on a Node with no creator
does not raise; on the code, a.backward() for the leaf a = Variable([7])
raises AttributeError straight after seeding a.grad, because
add_func(self.creator) receives None and funcs.sort(key=generation)
dereferences it.  The run therefore ends in the raised state, not a normal
return. -/
theorem c4_leaf_backward_raises :
    leafRun ⟨[], [7]⟩ = PyResult.exn
      ⟨[⟨⟨[], [7]⟩, some 1, none, 0⟩, ⟨⟨[], [1]⟩, none, none, 0⟩],
        [], true⟩ := by
  decide

/-- C4 amended: for every Node a whose creator is absent, a.backward()
first seeds a.grad with a fresh Variable of ones shaped like a.data and
leaves a.creator absent, but performs no other action because it then
raises (AttributeError on the absent creator) rather than returning
normally. -/
theorem c4_leaf_backward_seeds_then_raises (t : Tensor) :
    leafRun t = PyResult.exn
      ⟨[⟨t, some 1, none, 0⟩,
        ⟨⟨t.shape, List.replicate t.data.length 1⟩, none, none, 0⟩],
        [], true⟩ := rfl

/-- C6: evaluation of the code at the failing input x = Variable([1, 2, 3])
with slices = 0.  get_item(x, 0).backward() returns normally but leaves
x.grad equal to None: GetItem.backward constructs
GetItemGrad(self.slices, x.shape) without ever applying it and falls off
the end of the method, so the backward rule returns None and None is stored
as the gradient; the scatter into a zero-filled buffer that the claim
describes never runs (the heap still holds only the single GetItem
Function). -/
theorem c6_get_item_backward_returns_none :
    okGrad (getItemRun ⟨[3], [1, 2, 3]⟩ 0) 0 = some none ∧
    okFnCount (getItemRun ⟨[3], [1, 2, 3]⟩ 0) = some 1 := by
  decide

/-- C5 counterexample: for x = Variable([3]) and y = square(x), the call
y.backward() with retain_intermediate_grads left False returns normally but
clears the terminal Node itself: y is an output of its own creator, so the
clearing pass sets y.grad back to None even though the caller still holds
y, while the claim says the terminal Node keeps its grad unaffected. -/
theorem c5_terminal_grad_cleared :
    okGrad (squareRun ⟨[], [3]⟩) 1 = some none := by
  decide

/-- C7 counterexample: for x = Variable(2), y = square(x), z = square(y),
after z.unchain_backward() a further z.backward() is not a no-op: z still
has its creator (unchain_backward only unchains the inputs it walks over),
so that one Operation runs again and y.grad changes to 2 * y * 1 = 8,
while the claim says no backward rule runs and no other grad changes. -/
theorem c7_backward_after_unchain_not_noop :
    okGradData (c7Run ⟨[], [2]⟩) 1 = some ⟨[], [8]⟩ := by
  decide

/-- C5 amended: when backward is called with retain_grad left False the
engine clears the grad of every output Node of each processed Operation,
and the terminal Node the call was invoked on is itself an output of its
own creator, so its grad is cleared too; leaf Nodes are unaffected by the
clearing and keep the gradient accumulated into them (here, after
y = square(x) and y.backward(), y.grad is None while x.grad holds
2 * x.data). -/
theorem c5_clear_reaches_terminal_not_leaves (t : Tensor)
    (hwf : t.data.length = t.shape.prod) :
    okGrad (squareRun t) 1 = some none ∧
    okGradData (squareRun t) 0 = some ⟨t.shape, t.data.map (fun v => 2 * v)⟩ := by
  constructor
  · simp [squareRun, square_v, applyFn, fnForward, init1, backward, okGrad, okState,
      getVar, setGrad, newVar, onesLike, backward_loop, fnBackward, mul_const, mul_v,
      getFn, accumulate, assignGrad, add_func, insertByGen, clearOutputs, allSome,
      Tensor.powi, Tensor.mul, tmap2, broadcastShapes_self, broadcastShapes_nil_right,
      bget_scalar, sum_to_v]
  · simp [squareRun, square_v, applyFn, fnForward, init1, backward, okGradData,
      okState, getVar, setGrad, newVar, onesLike, backward_loop, fnBackward, mul_const,
      mul_v, getFn, accumulate, assignGrad, add_func, insertByGen, clearOutputs, allSome,
      Tensor.powi, Tensor.mul, tmap2, broadcastShapes_self, broadcastShapes_nil_right,
      bget_scalar, sum_to_v]
    conv_rhs => rw [← map_getD_allIdx t.shape t.data hwf, List.map_map]
    refine List.map_congr_left (fun idx hidx => ?_)
    rw [bget_mk_map hidx, bget_replicate_one hidx (le_of_eq hwf.symm),
      bget_of_mem hidx]
    simp only [Function.comp_apply]
    ring

/-- C5 amended witness at the concrete input x = Variable([3, 4]) of shape
(2,). -/
theorem c5_clear_reaches_terminal_witness :
    ((⟨[2], [3, 4]⟩ : Tensor).data.length = (⟨[2], [3, 4]⟩ : Tensor).shape.prod) ∧
    (okGrad (squareRun ⟨[2], [3, 4]⟩) 1 = some none ∧
      okGradData (squareRun ⟨[2], [3, 4]⟩) 0 =
        some ⟨(⟨[2], [3, 4]⟩ : Tensor).shape,
          (⟨[2], [3, 4]⟩ : Tensor).data.map (fun v => 2 * v)⟩) :=
  ⟨by decide, c5_clear_reaches_terminal_not_leaves ⟨[2], [3, 4]⟩ (by decide)⟩

set_option maxHeartbeats 2000000 in
/-- C7 amended: unchain_backward on z (creator chain of depth 2 through
y = square(x), z = square(y)) clears the creator of every ancestor Node it
walks over (y here; the leaf x already had none) but leaves the creator of
z itself in place; a subsequent z.backward() therefore still processes that
one creator Operation, assigning 2 * y.data (times the seeded ones) to
y.grad, and traverses no further: x.grad stays absent and no new Function
is recorded. -/
theorem c7_unchain_backward_keeps_own_creator (t : Tensor)
    (hwf : t.data.length = t.shape.prod) :
    (getVar (c7Unchained t) 1).creator = none ∧
    (getVar (c7Unchained t) 0).creator = none ∧
    (getVar (c7Unchained t) 2).creator = some 1 ∧
    okGrad (c7Run t) 0 = some none ∧
    okFnCount (c7Run t) = some 2 ∧
    okGradData (c7Run t) 1 = some ⟨t.shape, t.data.map (fun v => 2 * (v * v))⟩ := by
  refine ⟨rfl, rfl, rfl, ?_, ?_, ?_⟩
  · simp [c7Run, c7Unchained, chain2, square_v, applyFn, fnForward, init1, backward,
      okGrad, okState, getVar, setGrad, newVar, onesLike, backward_loop, fnBackward,
      mul_const, mul_v, getFn, accumulate, assignGrad, add_func, insertByGen,
      clearOutputs, allSome, unchain_backward, unchain_loop, unchainInputs, unchainVar,
      Tensor.powi, Tensor.mul, tmap2, broadcastShapes_self, broadcastShapes_nil_right,
      bget_scalar, sum_to_v]
  · simp [c7Run, c7Unchained, chain2, square_v, applyFn, fnForward, init1, backward,
      okFnCount, okState, getVar, setGrad, newVar, onesLike, backward_loop, fnBackward,
      mul_const, mul_v, getFn, accumulate, assignGrad, add_func, insertByGen,
      clearOutputs, allSome, unchain_backward, unchain_loop, unchainInputs, unchainVar,
      Tensor.powi, Tensor.mul, tmap2, broadcastShapes_self, broadcastShapes_nil_right,
      bget_scalar, sum_to_v]
  · simp [c7Run, c7Unchained, chain2, square_v, applyFn, fnForward, init1, backward,
      okGradData, okState, getVar, setGrad, newVar, onesLike, backward_loop, fnBackward,
      mul_const, mul_v, getFn, accumulate, assignGrad, add_func, insertByGen,
      clearOutputs, allSome, unchain_backward, unchain_loop, unchainInputs, unchainVar,
      Tensor.powi, Tensor.mul, tmap2, broadcastShapes_self, broadcastShapes_nil_right,
      bget_scalar, sum_to_v, length_allIdx]
    conv_rhs => rw [← map_getD_allIdx t.shape t.data hwf, List.map_map]
    refine List.map_congr_left (fun idx hidx => ?_)
    have hlt : flatIndex t.shape idx < t.data.length := by
      rw [hwf]; exact flatIndex_lt_prod hidx
    rw [bget_mk_map hidx,
      bget_of_mem (t := ⟨t.shape, t.data.map (fun v => v ^ 2)⟩) hidx,
      getD_map_lt hlt 0 0]
    have hone : Tensor.bget ⟨t.shape, List.replicate t.data.length (1 : Int)⟩ idx = 1 :=
      bget_replicate_one hidx (le_of_eq hwf.symm)
    rw [hone]
    simp only [Function.comp_apply]
    ring

/-- C7 amended witness at the concrete input x = Variable(2). -/
theorem c7_unchain_backward_witness :
    ((⟨[], [2]⟩ : Tensor).data.length = (⟨[], [2]⟩ : Tensor).shape.prod) ∧
    ((getVar (c7Unchained ⟨[], [2]⟩) 1).creator = none ∧
      (getVar (c7Unchained ⟨[], [2]⟩) 0).creator = none ∧
      (getVar (c7Unchained ⟨[], [2]⟩) 2).creator = some 1 ∧
      okGrad (c7Run ⟨[], [2]⟩) 0 = some none ∧
      okFnCount (c7Run ⟨[], [2]⟩) = some 2 ∧
      okGradData (c7Run ⟨[], [2]⟩) 1 =
        some ⟨(⟨[], [2]⟩ : Tensor).shape,
          (⟨[], [2]⟩ : Tensor).data.map (fun v => 2 * (v * v))⟩) :=
  ⟨by decide, c7_unchain_backward_keeps_own_creator ⟨[], [2]⟩ (by decide)⟩

/-- C1: for the diamond graph a, b = square(a), c = square(a),
d = add(b, c), d.backward() leaves a.grad holding 4 * a.data: the two
Square Operations each deliver 2 * a.data along their path, the first is
assigned directly because a.grad is absent, and the second is accumulated
by addition instead of overwriting. -/
theorem c1_diamond_backward_accumulates (t : Tensor)
    (hwf : t.data.length = t.shape.prod) :
    okGradData (diamondRun t) 0 = some ⟨t.shape, t.data.map (fun v => 4 * v)⟩ := by
  simp [diamondRun, square_v, add_v, applyFn, fnForward, init1, backward,
    okGradData, okState, getVar, setGrad, newVar, onesLike, backward_loop, fnBackward,
    mul_const, mul_v, getFn, accumulate, assignGrad, add_func, insertByGen,
    clearOutputs, allSome, Tensor.powi, Tensor.mul, Tensor.add, tmap2,
    broadcastShapes_self, broadcastShapes_nil_right, bget_scalar, sum_to_v,
    length_allIdx]
  conv_rhs => rw [← map_getD_allIdx t.shape t.data hwf, List.map_map]
  refine List.map_congr_left (fun idx hidx => ?_)
  have hone : ∀ n, t.shape.prod ≤ n →
      Tensor.bget ⟨t.shape, List.replicate n (1 : Int)⟩ idx = 1 :=
    fun n hn => bget_replicate_one hidx hn
  rw [bget_mk_map hidx, bget_mk_map hidx, bget_of_mem hidx]
  simp only [Function.comp_apply]
  rw [hone _ (le_refl _)]
  ring

/-- C1 witness at the concrete input a = Variable([3, 5]) of shape (2,). -/
theorem c1_diamond_witness :
    ((⟨[2], [3, 5]⟩ : Tensor).data.length = (⟨[2], [3, 5]⟩ : Tensor).shape.prod) ∧
    okGradData (diamondRun ⟨[2], [3, 5]⟩) 0 =
      some ⟨(⟨[2], [3, 5]⟩ : Tensor).shape,
        (⟨[2], [3, 5]⟩ : Tensor).data.map (fun v => 4 * v)⟩ :=
  ⟨by decide, c1_diamond_backward_accumulates ⟨[2], [3, 5]⟩ (by decide)⟩

/-- C10: when the same Variable occupies both input slots of one Operation,
as in y = add(x, x), y.backward() processes the two slots separately: the
first slot assigns the gradient of ones, the second finds the grad already
present and accumulates, leaving x.grad equal to 2 * ones_like(x.data)
rather than the gradient of one slot. -/
theorem c10_shared_input_slots_accumulate (t : Tensor)
    (hwf : t.data.length = t.shape.prod) :
    okGradData (addxxRun t) 0 = some ⟨t.shape, List.replicate t.data.length 2⟩ := by
  simp [addxxRun, add_v, applyFn, fnForward, init1, backward,
    okGradData, okState, getVar, setGrad, newVar, onesLike, backward_loop, fnBackward,
    mul_const, mul_v, getFn, accumulate, assignGrad, add_func, insertByGen,
    clearOutputs, allSome, Tensor.powi, Tensor.mul, Tensor.add, tmap2,
    broadcastShapes_self, broadcastShapes_nil_right, bget_scalar, sum_to_v,
    length_allIdx]
  have step1 : (allIdx t.shape).map (fun idx =>
      Tensor.bget ⟨t.shape, List.replicate t.shape.prod (1 : Int)⟩ idx +
      Tensor.bget ⟨t.shape, List.replicate t.shape.prod (1 : Int)⟩ idx) =
      (allIdx t.shape).map (fun _ => (2 : Int)) :=
    List.map_congr_left (fun idx hidx => by
      rw [bget_replicate_one hidx (le_refl _)]
      norm_num)
  rw [step1, List.map_const', length_allIdx, ← hwf]

/-- C2 counterexample at x = Variable(1): y = x ** 3 and
y.backward(create_graph=True) store x.grad = 3 * x ** 2 = 3; calling
backward on that gradient Node without clearing x.grad first accumulates
the second derivative onto the stored first-order gradient, leaving
x.grad = 3 + 6 = 9 and not 6 * x = 6 as the claim states. -/
theorem c2_second_backward_accumulates :
    okGradData (c2SecondPlain 1) 0 = some ⟨[], [9]⟩ ∧
    okGradData (c2SecondPlain 1) 0 ≠ some ⟨[], [6 * 1]⟩ := by
  decide

set_option maxHeartbeats 2000000 in
/-- C2 amended: during backward each backward rule runs with the recording
flag forced to create_graph.  For y = x ** 3, y.backward(create_graph=True)
produces x.grad = 3 * x ** 2 as a Node with a creator (recorded graph),
while with create_graph=False the gradient Node has no creator; after
clearing x.grad, calling backward on the gradient Node yields
x.grad = 6 * x, the second derivative at the original x; without the
clearing the second call accumulates onto the stored first-order gradient
and yields 3 * x ** 2 + 6 * x instead. -/
theorem c2_create_graph_second_order (v : Int) :
    okGradData (c2First v) 0 = some ⟨[], [3 * v ^ 2]⟩ ∧
    okGradCreator (c2First v) 0 = some (some 3) ∧
    okGradCreator (c2FirstNoGraph v) 0 = some none ∧
    okGradData (c2SecondCleared v) 0 = some ⟨[], [6 * v]⟩ ∧
    okGradData (c2SecondPlain v) 0 = some ⟨[], [3 * v ^ 2 + 6 * v]⟩ := by
  refine ⟨?_, ?_, ?_, ?_, ?_⟩ <;>
  · simp [c2First, c2FirstNoGraph, c2SecondCleared, c2SecondPlain, c2Build, cleargrad,
      pow_v, square_v, add_v, applyFn, fnForward, init1, backward, okGradData,
      okGradCreator, okState, getVar, setGrad, newVar, onesLike, backward_loop,
      fnBackward, mul_const, mul_v, getFn, accumulate, assignGrad, add_func,
      insertByGen, clearOutputs, allSome, Tensor.powi, Tensor.mul, Tensor.add, tmap2,
      broadcastShapes_self, broadcastShapes_nil_right, bget_scalar, sum_to_v, allIdx]
    try ring

/-- C8: whenever an Operation is applied with gradient recording enabled,
its generation becomes the maximum of the input generations (the foldl over
max that the source computes), the output Node is stamped with that
generation plus one and with the Operation as creator, so the output
generation strictly exceeds every input generation; and the generation
invariant over the whole heap is preserved by the application, keeping the
operation graph ordered by generation. -/
theorem c8_generation_orders_graph
    (k : FnKind) (inIds : List Nat) (s : EngineState) (y : Nat)
    (s' : EngineState) (hbp : s.enable_backprop = true)
    (hids : ∀ i ∈ inIds, i < s.vars.length)
    (hinv : GenInv s)
    (h : applyFn k inIds s = some (y, s')) :
    ((getVar s' y).creator = some s.fns.length ∧
      (getFn s' s.fns.length).generation =
        (inIds.map (fun i => (getVar s i).generation)).foldl max 0 ∧
      (getVar s' y).generation = (getFn s' s.fns.length).generation + 1 ∧
      ∀ i ∈ inIds, (getVar s i).generation < (getVar s' y).generation) ∧
    GenInv s' := by
  rw [applyFn] at h
  cases hf : fnForward k (inIds.map fun i => (getVar s i).data) with
  | none =>
    rw [hf] at h
    cases h
  | some yv =>
    rw [hf, hbp] at h
    simp only [if_true, Option.some.injEq, Prod.mk.injEq] at h
    obtain ⟨hy, hs⟩ := h
    subst hy
    subst hs
    constructor
    · refine ⟨?_, ?_, ?_, ?_⟩
      · simp only [getVar, getD_append_self]
      · simp only [getFn, getD_append_self]
      · simp only [getVar, getFn, getD_append_self]
      · intro i hi
        simp only [getVar, getD_append_self]
        have hle := (le_foldl_max (inIds.map (fun j => (getVar s j).generation)) 0).2
          ((getVar s i).generation) (List.mem_map_of_mem _ hi)
        simp only [getVar] at hle
        exact Nat.lt_succ_of_le hle
    · intro fid hfid
      simp only [List.length_append, List.length_singleton] at hfid
      by_cases hcase : fid < s.fns.length
      · obtain ⟨hI, hO, hG⟩ := hinv fid hcase
        simp only [getVar, getFn] at hI hO hG ⊢
        rw [getD_append_lt s.fns _ hcase]
        refine ⟨fun i hi => ?_, fun o ho => ?_, fun o ho => ?_⟩
        · have := hI i hi
          simp only [List.length_append, List.length_singleton]
          omega
        · have := hO o ho
          simp only [List.length_append, List.length_singleton]
          omega
        · obtain ⟨hg1, hg2⟩ := hG o ho
          rw [getD_append_lt s.vars _ (hO o ho)]
          refine ⟨hg1, fun i hi => ?_⟩
          rw [getD_append_lt s.vars _ (hI i hi)]
          exact hg2 i hi
      · have hfe : fid = s.fns.length := by omega
        subst hfe
        simp only [getVar, getFn, getD_append_self]
        refine ⟨fun i hi => ?_, fun o ho => ?_, fun o ho => ?_⟩
        · have := hids i hi
          simp only [List.length_append, List.length_singleton]
          omega
        · simp only [List.mem_singleton] at ho
          subst ho
          simp only [List.length_append, List.length_singleton]
          omega
        · simp only [List.mem_singleton] at ho
          subst ho
          rw [getD_append_self s.vars]
          refine ⟨rfl, fun i hi => ?_⟩
          rw [getD_append_lt s.vars _ (hids i hi)]
          have hle := (le_foldl_max (inIds.map (fun j => (getVar s j).generation)) 0).2
            ((getVar s i).generation) (List.mem_map_of_mem _ hi)
          simp only [getVar] at hle
          exact Nat.lt_succ_of_le hle

/-- C8 witness: applying Square to the leaf Variable 0 of a fresh
one-Variable heap satisfies the hypotheses, and the conclusion holds at the
resulting heap c8After. -/
theorem c8_generation_witness :
    ((init1 ⟨[], [5]⟩).enable_backprop = true ∧
      (∀ i ∈ [0], i < (init1 ⟨[], [5]⟩).vars.length) ∧
      GenInv (init1 ⟨[], [5]⟩) ∧
      applyFn .square [0] (init1 ⟨[], [5]⟩) = some (1, c8After)) ∧
    (((getVar c8After 1).creator = some (init1 ⟨[], [5]⟩).fns.length ∧
      (getFn c8After (init1 ⟨[], [5]⟩).fns.length).generation =
        ([0].map (fun i => (getVar (init1 ⟨[], [5]⟩) i).generation)).foldl max 0 ∧
      (getVar c8After 1).generation =
        (getFn c8After (init1 ⟨[], [5]⟩).fns.length).generation + 1 ∧
      ∀ i ∈ [0], (getVar (init1 ⟨[], [5]⟩) i).generation <
        (getVar c8After 1).generation) ∧
    GenInv c8After) :=
  ⟨⟨rfl, by decide, fun fid hfid => absurd hfid (by simp [init1]), by decide⟩,
    c8_generation_orders_graph .square [0] (init1 ⟨[], [5]⟩) 1 c8After
      rfl (by decide) (fun fid hfid => absurd hfid (by simp [init1])) (by decide)⟩

/-! ## Facts about sum_to over a broadcast ones buffer, toward C3 -/

theorem tensor_ext : ∀ {a b : Tensor}, a.shape = b.shape → a.data = b.data → a = b
  | ⟨_, _⟩, ⟨_, _⟩, rfl, rfl => rfl

theorem nodup_allIdx (s : List Nat) : (allIdx s).Nodup := by
  induction s with
  | nil => simp [allIdx]
  | cons d ds ih =>
    rw [allIdx, List.nodup_flatMap]
    refine ⟨fun i _ => ih.map (fun a b h => by injection h), ?_⟩
    have hr : (List.range d).Nodup := List.nodup_range d
    refine hr.imp (fun hne => ?_)
    intro x hx1 hx2
    rcases List.mem_map.1 hx1 with ⟨u, _, rfl⟩
    rcases List.mem_map.1 hx2 with ⟨w, _, he⟩
    injection he with h1 _
    exact hne h1.symm

theorem filter_eq_nil_of_not_mem {α : Type} [DecidableEq α] {xs : List α} {a : α}
    (h : a ∉ xs) : xs.filter (fun y => decide (y = a)) = [] := by
  induction xs with
  | nil => rfl
  | cons y ys ih =>
    rw [List.filter_cons]
    by_cases hy : y = a
    · exact absurd (hy ▸ List.mem_cons_self y ys) h
    · simp only [hy, decide_False, if_false]
      exact ih (fun hm => h (List.mem_cons_of_mem _ hm))

theorem length_filter_eq_one_of_nodup {α : Type} [DecidableEq α] {l : List α}
    (hl : l.Nodup) {a : α} (ha : a ∈ l) :
    (l.filter (fun x => decide (x = a))).length = 1 := by
  induction l with
  | nil => cases ha
  | cons x xs ih =>
    rw [List.filter_cons]
    by_cases hx : x = a
    · subst hx
      have hnot : x ∉ xs := (List.nodup_cons.1 hl).1
      simp [filter_eq_nil_of_not_mem hnot]
    · have ha2 : a ∈ xs := by
        rcases List.mem_cons.1 ha with rfl | h2
        · exact absurd rfl hx
        · exact h2
      simp only [hx, decide_False, if_false]
      exact ih (List.nodup_cons.1 hl).2 ha2

theorem specGrad_self (bs : List Nat) :
    specGrad bs bs = ⟨bs, List.replicate bs.prod (1 : Int)⟩ := by
  refine tensor_ext rfl ?_
  show (allIdx bs).map _ = _
  have h1 : ∀ ridx ∈ allIdx bs,
      ((((allIdx bs).filter (fun j => bclamp bs j = ridx)).length : Int)) = 1 := by
    intro ridx hr
    have hfc : (allIdx bs).filter (fun j => bclamp bs j = ridx) =
        (allIdx bs).filter (fun j => decide (j = ridx)) :=
      List.filter_congr (fun j hj => by rw [bclamp_of_mem hj])
    rw [hfc, length_filter_eq_one_of_nodup (nodup_allIdx bs) hr]
    rfl
  rw [List.map_congr_left h1, List.map_const', length_allIdx]

theorem mem_sumToAxes {s : List Nat} {lead : Nat} {x : Nat} :
    x ∈ sumToAxes s lead ↔ x < lead ∨ (lead ≤ x ∧ s[x - lead]? = some 1) := by
  simp only [sumToAxes, List.mem_append, List.mem_range, List.mem_filterMap]
  constructor
  · rintro (h | ⟨p, hp, he⟩)
    · exact Or.inl h
    · by_cases h1 : p.2 = 1
      · rw [if_pos h1] at he
        injection he with he2
        refine Or.inr ⟨by omega, ?_⟩
        rw [show x - lead = p.1 by omega, ← h1]
        exact List.mem_enum_iff_getElem?.1 hp
      · rw [if_neg h1] at he
        cases he
  · rintro (h | ⟨hle, hget⟩)
    · exact Or.inl h
    · refine Or.inr ⟨(x - lead, 1), List.mem_enum_iff_getElem?.2 hget, ?_⟩
      rw [if_pos rfl]
      congr 1
      omega

theorem lead_mem_sumToAxes {s : List Nat} {lead : Nat} {i : Nat} :
    (lead + i) ∈ sumToAxes s lead ↔ s[i]? = some 1 := by
  rw [mem_sumToAxes]
  constructor
  · rintro (h | ⟨_, h⟩)
    · omega
    · rwa [show lead + i - lead = i by omega] at h
  · intro h
    refine Or.inr ⟨by omega, ?_⟩
    rwa [show lead + i - lead = i by omega]

theorem lt_mem_sumToAxes {s : List Nat} {lead : Nat} {x : Nat} (h : x < lead) :
    x ∈ sumToAxes s lead :=
  mem_sumToAxes.2 (Or.inl h)

theorem rshape_lead_part {axes : List Nat} :
    ∀ (l : List Nat) (k : Nat), (∀ i, i < l.length → (k + i) ∈ axes) →
      (l.enumFrom k).map (fun p => if p.1 ∈ axes then 1 else p.2) =
        List.replicate l.length (1 : Nat)
  | [], _, _ => rfl
  | a :: l, k, h => by
    rw [List.enumFrom_cons, List.map_cons, List.length_cons, List.replicate_succ]
    have h0 : k ∈ axes := by
      have := h 0 (by simp)
      simpa using this
    rw [if_pos h0]
    congr 1
    exact rshape_lead_part l (k + 1) (fun i hi => by
      have := h (i + 1) (by simpa using Nat.succ_lt_succ hi)
      rwa [show k + (i + 1) = k + 1 + i by omega] at this)

theorem rshape_tail_part {axes : List Nat} :
    ∀ (s M : List Nat) (k : Nat),
      List.Forall₂ (fun a b => a = 1 ∨ a = b) s M →
      (∀ i, ((k + i) ∈ axes ↔ s[i]? = some 1)) →
      (M.enumFrom k).map (fun p => if p.1 ∈ axes then 1 else p.2) = s
  | [], M, k, hF, _ => by
    rw [List.forall₂_nil_left_iff.1 hF]
    rfl
  | a :: s, M, k, hF, hax => by
    rcases List.forall₂_cons_left_iff.1 hF with ⟨b, M', hab, hF2, rfl⟩
    rw [List.enumFrom_cons, List.map_cons]
    have hhead : (if k ∈ axes then 1 else b) = a := by
      have h0 := hax 0
      rw [Nat.add_zero] at h0
      simp only [List.getElem?_cons_zero, Option.some.injEq] at h0
      rcases hab with rfl | rfl
      · rw [if_pos (h0.2 rfl)]
      · by_cases ha1 : a = 1
        · rw [if_pos (h0.2 ha1), ha1]
        · rw [if_neg (fun hmem => ha1 (h0.1 hmem))]
    rw [hhead]
    congr 1
    exact rshape_tail_part s M' (k + 1) hF2 (fun i => by
      have := hax (i + 1)
      rw [show k + (i + 1) = k + 1 + i by omega] at this
      simpa using this)

theorem rshape_eq {L M s : List Nat}
    (hF : List.Forall₂ (fun a b => a = 1 ∨ a = b) s M) :
    ((L ++ M).enum).map
        (fun p => if p.1 ∈ sumToAxes s L.length then 1 else p.2) =
      List.replicate L.length 1 ++ s := by
  rw [List.enum, List.enumFrom_append, List.map_append, Nat.zero_add]
  congr 1
  · exact rshape_lead_part L 0 (fun i hi => lt_mem_sumToAxes (by omega))
  · exact rshape_tail_part s M L.length hF (fun i => lead_mem_sumToAxes)

theorem allIdx_replicate_one_append (s : List Nat) :
    ∀ k : Nat, allIdx (List.replicate k 1 ++ s) =
      (allIdx s).map (fun r => List.replicate k 0 ++ r)
  | 0 => by simp
  | k + 1 => by
    rw [List.replicate_succ, List.cons_append, allIdx]
    rw [show List.range 1 = [0] from rfl]
    simp only [List.flatMap_cons, List.flatMap_nil, List.append_nil]
    rw [allIdx_replicate_one_append s k, List.map_map]
    refine List.map_congr_left (fun r _ => ?_)
    simp [List.replicate_succ]

theorem get_replicate_one {s : List Nat} {n : Nat} {idx : List Nat}
    (h : idx ∈ allIdx s) (hn : s.prod ≤ n) :
    Tensor.get ⟨s, List.replicate n (1 : Int)⟩ idx = 1 := by
  show (List.replicate n (1 : Int)).getD (flatIndex s idx) 0 = 1
  rw [List.getD_eq_getElem?_getD, List.getElem?_replicate]
  have := flatIndex_lt_prod h
  simp [Nat.lt_of_lt_of_le this hn]

theorem compatFrom_append_left {axes : List Nat} :
    ∀ (u1 r1 u2 r2 : List Nat) (k : Nat), u1.length = r1.length →
      (∀ i, i < u1.length → (k + i) ∈ axes) →
      compatFrom axes k (u1 ++ u2) (r1 ++ r2) =
        compatFrom axes (k + u1.length) u2 r2
  | [], [], u2, r2, k, _, _ => by simp
  | [], _ :: _, _, _, _, hlen, _ => by simp at hlen
  | _ :: _, [], _, _, _, hlen, _ => by simp at hlen
  | a :: u1, b :: r1, u2, r2, k, hlen, hmem => by
    rw [List.cons_append, List.cons_append]
    show ((decide (k ∈ axes) || decide (a = b)) &&
      compatFrom axes (k + 1) (u1 ++ u2) (r1 ++ r2)) = _
    have h0 : k ∈ axes := by
      have := hmem 0 (by simp)
      simpa using this
    rw [decide_eq_true h0, Bool.true_or, Bool.true_and]
    rw [compatFrom_append_left u1 r1 u2 r2 (k + 1) (by simpa using hlen)
      (fun i hi => by
        have := hmem (i + 1) (by simpa using Nat.succ_lt_succ hi)
        rwa [show k + (i + 1) = k + 1 + i by omega] at this)]
    congr 1
    simp only [List.length_cons]
    omega

theorem compatFrom_trailing {axes : List Nat} :
    ∀ (s M jM ridx : List Nat) (k : Nat),
      List.Forall₂ (fun a b => a = 1 ∨ a = b) s M →
      List.Forall₂ (fun i d => i < d) jM M →
      List.Forall₂ (fun i d => i < d) ridx s →
      (∀ i, ((k + i) ∈ axes ↔ s[i]? = some 1)) →
      (compatFrom axes k jM ridx = true ↔
        List.zipWith (fun d i => if d = 1 then 0 else i) s jM = ridx)
  | [], M, jM, ridx, k, hF, hjM, hridx, _ => by
    rw [List.forall₂_nil_left_iff.1 hF] at hjM
    rw [List.forall₂_nil_right_iff.1 hjM]
    rw [List.forall₂_nil_right_iff.1 hridx]
    simp [compatFrom]
  | a :: s, M, jM, ridx, k, hF, hjM, hridx, hax => by
    rcases List.forall₂_cons_left_iff.1 hF with ⟨b, M2, hab, hF2, rfl⟩
    rcases List.forall₂_cons_right_iff.1 hjM with ⟨jm, jM2, hjm, hjM2, rfl⟩
    rcases List.forall₂_cons_right_iff.1 hridx with ⟨r0, r2, hr0, hr2, rfl⟩
    have h0 := hax 0
    rw [Nat.add_zero] at h0
    simp only [List.getElem?_cons_zero, Option.some.injEq] at h0
    have htail := compatFrom_trailing s M2 jM2 r2 (k + 1) hF2 hjM2 hr2
      (fun i => by
        have := hax (i + 1)
        rw [show k + (i + 1) = k + 1 + i by omega] at this
        simpa using this)
    show ((decide (k ∈ axes) || decide (jm = r0)) &&
      compatFrom axes (k + 1) jM2 r2) = true ↔ _
    rw [List.zipWith_cons_cons, List.cons.injEq]
    by_cases ha1 : a = 1
    · rw [decide_eq_true (h0.2 ha1), Bool.true_or, Bool.true_and, if_pos ha1]
      have hr00 : r0 = 0 := by omega
      rw [htail]
      constructor
      · exact fun h => ⟨hr00.symm, h⟩
      · exact fun h => h.2
    · have hkn : k ∉ axes := fun hmem => ha1 (h0.1 hmem)
      rw [decide_eq_false hkn, Bool.false_or, if_neg ha1, Bool.and_eq_true,
        decide_eq_true_eq, htail]

theorem compat_iff_bclamp {s L M : List Nat} {j ridx : List Nat}
    (hM : M.length = s.length)
    (hF : List.Forall₂ (fun a b => a = 1 ∨ a = b) s M)
    (hj : j ∈ allIdx (L ++ M)) (hr : ridx ∈ allIdx s) :
    (compatFrom (sumToAxes s L.length) 0 j
        (List.replicate L.length 0 ++ ridx) = true) ↔
      bclamp s j = ridx := by
  have hjF := mem_allIdx.1 hj
  have hrF := mem_allIdx.1 hr
  have hlenj : j.length = L.length + M.length := by
    rw [hjF.length_eq, List.length_append]
  have htake : (j.take L.length).length = L.length := by
    rw [List.length_take]
    omega
  have hdropF : List.Forall₂ (fun i d => i < d) (j.drop L.length) M := by
    have := List.forall₂_drop L.length hjF
    rwa [List.drop_left] at this
  have hsplit : j.take L.length ++ j.drop L.length = j := List.take_append_drop _ _
  conv_lhs => rw [← hsplit]
  rw [compatFrom_append_left (j.take L.length) (List.replicate L.length 0) _ _ 0
    (by rw [htake, List.length_replicate])
    (fun i hi => lt_mem_sumToAxes (by rw [htake] at hi; omega))]
  rw [Nat.zero_add, htake]
  rw [compatFrom_trailing s M (j.drop L.length) ridx L.length hF hdropF hrF
    (fun i => lead_mem_sumToAxes)]
  unfold bclamp
  rw [show j.length - s.length = L.length by omega]

theorem bcastRev_compat :
    ∀ {r0 r1 rb : List Nat}, bcastRev r0 r1 = some rb →
      (r0.length ≤ rb.length ∧
        List.Forall₂ (fun a b => a = 1 ∨ a = b) r0 (rb.take r0.length)) ∧
      (r1.length ≤ rb.length ∧
        List.Forall₂ (fun a b => a = 1 ∨ a = b) r1 (rb.take r1.length))
  | [], r1, rb, h => by
    simp only [bcastRev] at h
    injection h with h
    subst h
    refine ⟨⟨by simp, by simp⟩, ⟨le_refl _, ?_⟩⟩
    rw [List.take_length]
    exact List.forall₂_same.2 (fun a _ => Or.inr rfl)
  | a :: as, [], rb, h => by
    simp only [bcastRev] at h
    injection h with h
    subst h
    refine ⟨⟨le_refl _, ?_⟩, ⟨by simp, by simp⟩⟩
    rw [List.take_length]
    exact List.forall₂_same.2 (fun a _ => Or.inr rfl)
  | a :: as, b :: bs, rb, h => by
    cases hrest : bcastRev as bs with
    | none =>
      simp only [bcastRev, hrest] at h
      cases h
    | some rest =>
      simp only [bcastRev, hrest] at h
      obtain ⟨⟨hl0, hf0⟩, ⟨hl1, hf1⟩⟩ := bcastRev_compat hrest
      by_cases hab : a = b
      · rw [if_pos hab] at h
        injection h with h
        subst h
        subst hab
        refine ⟨⟨?_, ?_⟩, ⟨?_, ?_⟩⟩
        · simp only [List.length_cons]
          omega
        · rw [List.length_cons, List.take_succ_cons]
          exact List.Forall₂.cons (Or.inr rfl) hf0
        · simp only [List.length_cons]
          omega
        · rw [List.length_cons, List.take_succ_cons]
          exact List.Forall₂.cons (Or.inr rfl) hf1
      · rw [if_neg hab] at h
        by_cases ha1 : a = 1
        · rw [if_pos ha1] at h
          injection h with h
          subst h
          refine ⟨⟨?_, ?_⟩, ⟨?_, ?_⟩⟩
          · simp only [List.length_cons]
            omega
          · rw [List.length_cons, List.take_succ_cons]
            exact List.Forall₂.cons (Or.inl ha1) hf0
          · simp only [List.length_cons]
            omega
          · rw [List.length_cons, List.take_succ_cons]
            exact List.Forall₂.cons (Or.inr rfl) hf1
        · rw [if_neg ha1] at h
          by_cases hb1 : b = 1
          · rw [if_pos hb1] at h
            injection h with h
            subst h
            refine ⟨⟨?_, ?_⟩, ⟨?_, ?_⟩⟩
            · simp only [List.length_cons]
              omega
            · rw [List.length_cons, List.take_succ_cons]
              exact List.Forall₂.cons (Or.inr rfl) hf0
            · simp only [List.length_cons]
              omega
            · rw [List.length_cons, List.take_succ_cons]
              exact List.Forall₂.cons (Or.inl hb1) hf1
          · rw [if_neg hb1] at h
            cases h

theorem sum_to_eq (x : Tensor) (shape : List Nat) :
    Transform.sum_to x shape =
      if 0 < x.shape.length - shape.length
      then (x.sumAxesKeepdims
        (sumToAxes shape (x.shape.length - shape.length))).squeezeLead
        (x.shape.length - shape.length)
      else x.sumAxesKeepdims (sumToAxes shape (x.shape.length - shape.length)) :=
  rfl

theorem sumAxes_ones (L M s : List Nat) (hM : M.length = s.length)
    (hF : List.Forall₂ (fun a b => a = 1 ∨ a = b) s M)
    (n : Nat) (hn : (L ++ M).prod ≤ n) :
    Tensor.sumAxesKeepdims ⟨L ++ M, List.replicate n 1⟩ (sumToAxes s L.length) =
      ⟨List.replicate L.length 1 ++ s, (specGrad s (L ++ M)).data⟩ := by
  have hE := rshape_eq (L := L) hF
  refine tensor_ext ?_ ?_
  · show ((L ++ M).enum).map _ = _
    exact hE
  · show ((allIdx (((L ++ M).enum).map _)).map _) = _
    rw [hE, allIdx_replicate_one_append s L.length, List.map_map]
    show _ = (allIdx s).map _
    refine List.map_congr_left (fun ridx hr => ?_)
    simp only [Function.comp_apply]
    have hfilter : (allIdx (L ++ M)).filter
        (fun idx => compatFrom (sumToAxes s L.length) 0 idx
          (List.replicate L.length 0 ++ ridx)) =
        (allIdx (L ++ M)).filter (fun j => decide (bclamp s j = ridx)) := by
      refine List.filter_congr (fun j hj => ?_)
      have hiff := compat_iff_bclamp hM hF hj hr
      cases hcb : compatFrom (sumToAxes s L.length) 0 j
          (List.replicate L.length 0 ++ ridx) with
      | true => exact (decide_eq_true (hiff.1 hcb)).symm
      | false =>
        refine (decide_eq_false (fun hb => ?_)).symm
        rw [hiff.2 hb] at hcb
        cases hcb
    rw [hfilter]
    have hget : ∀ jj ∈ (allIdx (L ++ M)).filter
        (fun j => decide (bclamp s j = ridx)),
        Tensor.get ⟨L ++ M, List.replicate n 1⟩ jj = 1 := fun jj hjj =>
      get_replicate_one (List.mem_of_mem_filter hjj) hn
    rw [List.map_congr_left hget]
    simp [specGrad]

theorem sum_to_ones {L M s : List Nat} (hM : M.length = s.length)
    (hF : List.Forall₂ (fun a b => a = 1 ∨ a = b) s M)
    {n : Nat} (hn : (L ++ M).prod ≤ n) :
    Transform.sum_to ⟨L ++ M, List.replicate n 1⟩ s = specGrad s (L ++ M) := by
  rw [sum_to_eq]
  have hlen : (⟨L ++ M, List.replicate n (1 : Int)⟩ : Tensor).shape.length -
      s.length = L.length := by
    show (L ++ M).length - s.length = L.length
    rw [List.length_append]
    omega
  rw [hlen, sumAxes_ones L M s hM hF n hn]
  have hdrop : (List.replicate L.length 1 ++ s).drop L.length = s := by
    have h2 := List.drop_left (List.replicate L.length (1 : Nat)) s
    rwa [List.length_replicate] at h2
  by_cases hL : 0 < L.length
  · rw [if_pos hL]
    exact tensor_ext hdrop rfl
  · rw [if_neg hL]
    have h0 : L.length = 0 := by omega
    refine tensor_ext ?_ rfl
    show List.replicate L.length 1 ++ s = _
    rw [h0]
    rfl

theorem broadcast_decomp {s0 s1 bs : List Nat}
    (h : broadcastShapes s0 s1 = some bs) :
    (∃ L M, bs = L ++ M ∧ M.length = s0.length ∧
      List.Forall₂ (fun a b => a = 1 ∨ a = b) s0 M) ∧
    (∃ L M, bs = L ++ M ∧ M.length = s1.length ∧
      List.Forall₂ (fun a b => a = 1 ∨ a = b) s1 M) := by
  rw [broadcastShapes] at h
  rcases Option.map_eq_some'.1 h with ⟨rb, hrb, hrev⟩
  have hrb2 : rb = bs.reverse := by rw [← hrev, List.reverse_reverse]
  subst hrb2
  obtain ⟨⟨hl0, hf0⟩, ⟨hl1, hf1⟩⟩ := bcastRev_compat hrb
  rw [List.length_reverse] at hl0 hl1
  rw [List.length_reverse] at hl0 hl1
  constructor
  · refine ⟨bs.take (bs.length - s0.length), bs.drop (bs.length - s0.length),
      (List.take_append_drop _ _).symm, ?_, ?_⟩
    · rw [List.length_drop]
      have hle : s0.length ≤ bs.length := by
        have := hl0
        omega
      omega
    · rw [List.length_reverse, List.take_reverse] at hf0
      exact List.forall₂_reverse_iff.1 hf0
  · refine ⟨bs.take (bs.length - s1.length), bs.drop (bs.length - s1.length),
      (List.take_append_drop _ _).symm, ?_, ?_⟩
    · rw [List.length_drop]
      have hle : s1.length ≤ bs.length := by
        have := hl1
        omega
      omega
    · rw [List.length_reverse, List.take_reverse] at hf1
      exact List.forall₂_reverse_iff.1 hf1

set_option maxHeartbeats 4000000 in
/-- C3: for two Nodes x, y of equal shape, add(x, y).backward() leaves
x.grad and y.grad the same gradient Node holding ones_like(x.data); for
unequal broadcastable shapes, the Add Operation records the pre-broadcast
operand shapes at forward time (visible as x0_shape and x1_shape on the
recorded Function) and routes each raw gradient through sum_to, so each
resulting gradient equals the elementwise ones gradient of the broadcast
output summed over the broadcast axes — the tensor specGrad, whose shape is
the corresponding input's original shape. -/
theorem c3_add_backward_broadcast_gradients :
    (∀ t0 t1 : Tensor, t0.data.length = t0.shape.prod →
      t1.data.length = t1.shape.prod → t0.shape = t1.shape →
      okGrad (addRun t0 t1) 0 = okGrad (addRun t0 t1) 1 ∧
      okGradData (addRun t0 t1) 0 =
        some ⟨t0.shape, List.replicate t0.data.length 1⟩ ∧
      okGradData (addRun t0 t1) 1 =
        some ⟨t0.shape, List.replicate t0.data.length 1⟩ ∧
      (okState (addRun t0 t1)).map (fun s => fnCapturedShapes s 0) =
        some (t0.shape, t1.shape)) ∧
    (∀ t0 t1 : Tensor, ∀ bs : List Nat, t0.data.length = t0.shape.prod →
      t1.data.length = t1.shape.prod → t0.shape ≠ t1.shape →
      broadcastShapes t0.shape t1.shape = some bs →
      okGradData (addRun t0 t1) 0 = some (specGrad t0.shape bs) ∧
      okGradData (addRun t0 t1) 1 = some (specGrad t1.shape bs) ∧
      (okState (addRun t0 t1)).map (fun s => fnCapturedShapes s 0) =
        some (t0.shape, t1.shape)) := by
  constructor
  · intro t0 t1 hwf0 hwf1 hsh
    rw [hsh] at hwf0
    refine ⟨?_, ?_, ?_, ?_⟩ <;>
    · simp [addRun, add_v, applyFn, fnForward, init2, backward, okGrad, okGradData,
        okState, fnCapturedShapes, getVar, getFn, setGrad, newVar, onesLike,
        backward_loop, fnBackward, accumulate, assignGrad, add_func,
        insertByGen, clearOutputs, allSome, Tensor.add, tmap2, broadcastShapes_self,
        bget_scalar, sum_to_v, length_allIdx, hsh, hwf0]
  · intro t0 t1 bs hwf0 hwf1 hne hbs
    obtain ⟨⟨L0, M0, hbs0, hM0, hF0⟩, ⟨L1, M1, hbs1, hM1, hF1⟩⟩ :=
      broadcast_decomp hbs
    by_cases hc0 : bs = t0.shape
    · subst hc0
      have hc1 : ¬(t0.shape = t1.shape) := hne
      have hspec0 : specGrad t0.shape t0.shape =
          ⟨t0.shape, List.replicate t0.shape.prod 1⟩ := specGrad_self _
      have hsum1 : Transform.sum_to
          ⟨t0.shape, List.replicate t0.shape.prod 1⟩ t1.shape =
          specGrad t1.shape t0.shape := by
        rw [hbs1]
        exact sum_to_ones hM1 hF1 (le_refl _)
      refine ⟨?_, ?_, ?_⟩ <;>
      · simp [addRun, add_v, applyFn, fnForward, init2, backward, okGrad, okGradData,
          okState, fnCapturedShapes, getVar, getFn, setGrad, newVar, onesLike,
          backward_loop, fnBackward, accumulate, assignGrad, add_func,
          insertByGen, clearOutputs, allSome, Tensor.add, tmap2,
          bget_scalar, sum_to_v, length_allIdx, hbs, hne, hc1, hsum1, hspec0]
    · by_cases hc1 : bs = t1.shape
      · subst hc1
        have hspec1 : specGrad t1.shape t1.shape =
            ⟨t1.shape, List.replicate t1.shape.prod 1⟩ := specGrad_self _
        have hsum0 : Transform.sum_to
            ⟨t1.shape, List.replicate t1.shape.prod 1⟩ t0.shape =
            specGrad t0.shape t1.shape := by
          rw [hbs0]
          exact sum_to_ones hM0 hF0 (le_refl _)
        refine ⟨?_, ?_, ?_⟩ <;>
        · simp [addRun, add_v, applyFn, fnForward, init2, backward, okGrad,
            okGradData, okState, fnCapturedShapes, getVar, getFn, setGrad, newVar,
            onesLike, backward_loop, fnBackward, accumulate, assignGrad, add_func,
            insertByGen, clearOutputs, allSome, Tensor.add, tmap2,
            bget_scalar, sum_to_v, length_allIdx, hbs, hne, hc0, hsum0, hspec1]
      · have hsum0 : Transform.sum_to ⟨bs, List.replicate bs.prod 1⟩ t0.shape =
            specGrad t0.shape bs := by
          rw [hbs0]
          exact sum_to_ones hM0 hF0 (le_refl _)
        have hsum1 : Transform.sum_to ⟨bs, List.replicate bs.prod 1⟩ t1.shape =
            specGrad t1.shape bs := by
          rw [hbs1]
          exact sum_to_ones hM1 hF1 (le_refl _)
        refine ⟨?_, ?_, ?_⟩ <;>
        · simp [addRun, add_v, applyFn, fnForward, init2, backward, okGrad,
            okGradData, okState, fnCapturedShapes, getVar, getFn, setGrad, newVar,
            onesLike, backward_loop, fnBackward, accumulate, assignGrad, add_func,
            insertByGen, clearOutputs, allSome, Tensor.add, tmap2,
            bget_scalar, sum_to_v, length_allIdx, hbs, hne, hc0, hc1, hsum0, hsum1]

/-- C3 witness: the equal-shape half at x = Variable([1, 2]) and
y = Variable([3, 4]) of shape (2,), and the broadcast half at
x = Variable([[1, 2, 3], [4, 5, 6]]) of shape (2, 3) and
y = Variable([1, 2, 3]) of shape (3,), whose broadcast shape is (2, 3). -/
theorem c3_add_backward_witness :
    ((⟨[2], [1, 2]⟩ : Tensor).data.length = (⟨[2], [1, 2]⟩ : Tensor).shape.prod ∧
      (⟨[2], [3, 4]⟩ : Tensor).data.length = (⟨[2], [3, 4]⟩ : Tensor).shape.prod ∧
      (⟨[2], [1, 2]⟩ : Tensor).shape = (⟨[2], [3, 4]⟩ : Tensor).shape ∧
      okGradData (addRun ⟨[2], [1, 2]⟩ ⟨[2], [3, 4]⟩) 0 =
        some ⟨(⟨[2], [1, 2]⟩ : Tensor).shape,
          List.replicate (⟨[2], [1, 2]⟩ : Tensor).data.length 1⟩) ∧
    ((⟨[2, 3], [1, 2, 3, 4, 5, 6]⟩ : Tensor).data.length =
        (⟨[2, 3], [1, 2, 3, 4, 5, 6]⟩ : Tensor).shape.prod ∧
      (⟨[3], [1, 2, 3]⟩ : Tensor).data.length =
        (⟨[3], [1, 2, 3]⟩ : Tensor).shape.prod ∧
      (⟨[2, 3], [1, 2, 3, 4, 5, 6]⟩ : Tensor).shape ≠
        (⟨[3], [1, 2, 3]⟩ : Tensor).shape ∧
      broadcastShapes (⟨[2, 3], [1, 2, 3, 4, 5, 6]⟩ : Tensor).shape
        (⟨[3], [1, 2, 3]⟩ : Tensor).shape = some [2, 3] ∧
      okGradData (addRun ⟨[2, 3], [1, 2, 3, 4, 5, 6]⟩ ⟨[3], [1, 2, 3]⟩) 0 =
        some (specGrad (⟨[2, 3], [1, 2, 3, 4, 5, 6]⟩ : Tensor).shape [2, 3]) ∧
      okGradData (addRun ⟨[2, 3], [1, 2, 3, 4, 5, 6]⟩ ⟨[3], [1, 2, 3]⟩) 1 =
        some (specGrad (⟨[3], [1, 2, 3]⟩ : Tensor).shape [2, 3])) :=
  ⟨⟨by decide, by decide, by decide,
      (c3_add_backward_broadcast_gradients.1 ⟨[2], [1, 2]⟩ ⟨[2], [3, 4]⟩
        (by decide) (by decide) (by decide)).2.1⟩,
    ⟨by decide, by decide, by decide, by decide,
      (c3_add_backward_broadcast_gradients.2 ⟨[2, 3], [1, 2, 3, 4, 5, 6]⟩
        ⟨[3], [1, 2, 3]⟩ [2, 3] (by decide) (by decide) (by decide) (by decide)).1,
      (c3_add_backward_broadcast_gradients.2 ⟨[2, 3], [1, 2, 3, 4, 5, 6]⟩
        ⟨[3], [1, 2, 3]⟩ [2, 3] (by decide) (by decide) (by decide)
        (by decide)).2.1⟩⟩

/-- C10 witness at the concrete input x = Variable([4, 7]) of shape (2,). -/
theorem c10_shared_input_witness :
    ((⟨[2], [4, 7]⟩ : Tensor).data.length = (⟨[2], [4, 7]⟩ : Tensor).shape.prod) ∧
    okGradData (addxxRun ⟨[2], [4, 7]⟩) 0 =
      some ⟨(⟨[2], [4, 7]⟩ : Tensor).shape,
        List.replicate (⟨[2], [4, 7]⟩ : Tensor).data.length 2⟩ :=
  ⟨by decide, c10_shared_input_slots_accumulate ⟨[2], [4, 7]⟩ (by decide)⟩

end Aria
